import Mathlib

/-
Verification of the bao decoder (src/decode.rs) against its specification.

The decode state machine, the streaming reader, and the offset arithmetic are
translated from src/decode.rs.  Bytes are modelled as natural numbers, byte
strings as lists, u64/usize/u128 as Nat (with explicit bounds checks where the
source performs them), and Rust panics (expect/panic/unreachable) as a
distinguished outcome.  The pieces of the crate that decode.rs imports but
whose sources are not part of this snapshot (hash::left_len, hash::decode_len,
encode::encoded_subtree_size, the encoder, and the BLAKE2b node hash) are
modelled from the spec; the node hash itself is kept as an explicit function
parameter, since its internals are out of scope.
-/

namespace Bao

/-- CHUNK_SIZE from the spec, section 3. -/
def CHUNK_SIZE : Nat := 4096

/-- HASH_SIZE from the spec, section 3. -/
def HASH_SIZE : Nat := 32

/-- PARENT_SIZE from the spec, section 3. -/
def PARENT_SIZE : Nat := 64

/-- HEADER_SIZE from the spec, section 3. -/
def HEADER_SIZE : Nat := 8

/-- Largest value of a u64. -/
def U64_MAX : Nat := 2 ^ 64 - 1

/-- Hashes are 32-byte strings; bytes are naturals below 256. -/
abbrev Hash := List Nat

/-- Finalization from the spec, section 3: NotRoot, or Root carrying the
content length. -/
inductive Finalization where
  | notRoot : Finalization
  | root (len : Nat) : Finalization
deriving DecidableEq, Repr

/-- Modelled from the spec, section 3 (hash::left_len is not in src/):
for a subtree of length L > CHUNK_SIZE, the left child length is
CHUNK_SIZE * 2 ^ floor(log2((L-1)/CHUNK_SIZE)). -/
def left_len (L : Nat) : Nat :=
  CHUNK_SIZE * 2 ^ Nat.log 2 ((L - 1) / CHUNK_SIZE)

/-- Modelled from the spec, section 3 (encode::encoded_subtree_size is not in
src/): 0 for empty content, else C plus PARENT_SIZE for every parent,
where the number of parents is the number of chunks minus one. -/
def encoded_subtree_size (C : Nat) : Nat :=
  if C = 0 then 0 else C + PARENT_SIZE * ((C + CHUNK_SIZE - 1) / CHUNK_SIZE - 1)

/-- Modelled from the spec, section 3 (hash::decode_len is not in src/):
the header is a little-endian u64, first byte least significant. -/
def decode_len (header : List Nat) : Nat :=
  header.foldr (fun b acc => b + 256 * acc) 0

/-- Little-endian 8-byte encoding of a content length, inverse of decode_len
on values below 2^64; used to build concrete headers. -/
def encode_len (n : Nat) : List Nat :=
  (List.range 8).map (fun i => n / 256 ^ i % 256)

/-- StateNext from src/decode.rs: the next event the driver must supply. -/
inductive StateNext where
  | header : StateNext
  | subtree (size skip : Nat) (f : Finalization) : StateNext
  | chunk (size skip : Nat) (f : Finalization) : StateNext
  | done : StateNext
deriving DecidableEq, Repr

/-- Subtree from src/decode.rs: a hash plus the plaintext range [start, stop).
The Rust field named end is called stop here (end is a Lean keyword). -/
structure Subtree where
  hash : Hash
  start : Nat
  stop : Nat
deriving DecidableEq, Repr

/-- Subtree::len. -/
def Subtree.len (s : Subtree) : Nat := s.stop - s.start

/-- Subtree::is_root. -/
def Subtree.is_root (s : Subtree) (content_length : Nat) : Bool :=
  s.start == 0 && s.stop == content_length

/-- Subtree::finalization. -/
def Subtree.finalization (s : Subtree) (content_length : Nat) : Finalization :=
  if s.is_root content_length then .root s.len else .notRoot

/-- Subtree::state_next. -/
def Subtree.state_next (s : Subtree) (content_length content_position : Nat) :
    StateNext :=
  let skip := content_position - s.start
  if s.len ≤ CHUNK_SIZE then .chunk s.len skip (s.finalization content_length)
  else .subtree s.len skip (s.finalization content_length)

/-- State from src/decode.rs.  The stack is a list whose head is the Rust
stack top (the last element of the ArrayVec). -/
structure State where
  stack : List Subtree
  root_hash : Hash
  content_length : Option Nat
  length_verified : Bool
  content_position : Nat
  encoded_offset : Nat
deriving DecidableEq, Repr

/-- State::new. -/
def State.new (root_hash : Hash) : State :=
  { stack := [], root_hash, content_length := none, length_verified := false,
    content_position := 0, encoded_offset := 0 }

/-- State::position. -/
def State.position (s : State) : Nat := s.content_position

/-- State::reset_to_root.  Returns none where the Rust code panics
(expect "no header").  Note that the source sets content_position to 0. -/
def State.reset_to_root (s : State) : Option State :=
  s.content_length.map fun C =>
    { s with
      content_position := 0, encoded_offset := HEADER_SIZE,
      stack := [{ hash := s.root_hash, start := 0, stop := C }] }

/-- State::len_next.  Returns none where the Rust code panics
(expect "unverified EOF"). -/
def State.len_next (s : State) : Option (Nat ⊕ StateNext) :=
  match s.content_length with
  | some C =>
    if s.length_verified then some (.inl C)
    else
      match s.stack with
      | [] => none
      | t :: _ => some (.inr (t.state_next C s.content_position))
  | none => some (.inr .header)

/-- State::read_next.  Returns none where the Rust code panics. -/
def State.read_next (s : State) : Option StateNext :=
  match s.len_next with
  | none => none
  | some (.inr next) => some next
  | some (.inl C) =>
    match s.stack with
    | t :: _ => some (t.state_next C s.content_position)
    | [] => if s.length_verified then some .done else none

/-- Main loop of State::seek_next: pop subtrees until one holds the target,
threading the remaining stack and the encoded offset. -/
def seekLoop (C target pos : Nat) :
    List Subtree → Nat → List Subtree × Nat × StateNext
  | [], off => ([], off, .done)
  | top :: rest, off =>
    if target < top.start + CHUNK_SIZE then (top :: rest, off, .done)
    else if target < top.stop then
      (top :: rest, off, top.state_next C pos)
    else seekLoop C target pos rest (off + encoded_subtree_size top.len)

/-- State::seek_next.  Returns none where the Rust code panics; otherwise
returns the new state together with the (encoded_offset, StateNext) pair the
Rust method returns. -/
def State.seek_next (s : State) (content_position : Nat) :
    Option (State × Nat × StateNext) :=
  match s.len_next with
  | none => none
  | some (.inr next) => some (s, s.encoded_offset, next)
  | some (.inl C) =>
    let s1 := { s with content_position := content_position }
    let afterEmpty : Option (Option State) :=
      if s1.stack.isEmpty then
        if content_position ≥ C then none
        else some s1.reset_to_root
      else some (some s1)
    match afterEmpty with
    | none => some (s1, s1.encoded_offset, .done)
    | some none => none
    | some (some s2) =>
      let s3opt : Option State :=
        match s2.stack with
        | t :: _ => if content_position < t.start then s2.reset_to_root else some s2
        | [] => some s2
      match s3opt with
      | none => none
      | some s3 =>
        let r := seekLoop C content_position s3.content_position s3.stack
          s3.encoded_offset
        some ({ s3 with stack := r.1, encoded_offset := r.2.1 }, r.2.1, r.2.2)

/-- State::feed_header.  Returns none where the Rust code panics
(second call to feed_header). -/
def State.feed_header (s : State) (header : List Nat) : Option State :=
  match s.content_length with
  | some _ => none
  | none =>
    let C := decode_len header
    ({ s with content_length := some C } : State).reset_to_root

/-- State::feed_parent, parameterised by the node hash function.  Returns
none where the Rust code panics; otherwise returns the state after the call
together with true for Ok and false for the hash-mismatch Err (in which case
the Rust method returned before any mutation, so the state is the input). -/
def State.feed_parent (hashNode : List Nat → Finalization → Hash)
    (s : State) (parent : List Nat) : Option (State × Bool) :=
  match s.content_length with
  | none => none
  | some C =>
    match s.stack with
    | [] => none
    | top :: rest =>
      if top.len ≤ CHUNK_SIZE then none
      else
        let computed := hashNode parent (top.finalization C)
        if top.hash ≠ computed then some (s, false)
        else
          let split := top.start + left_len top.len
          let left_subtree : Subtree :=
            { hash := parent.take HASH_SIZE, start := top.start, stop := split }
          let right_subtree : Subtree :=
            { hash := (parent.drop HASH_SIZE).take HASH_SIZE, start := split,
              stop := top.stop }
          some ({ s with
                  stack := left_subtree :: right_subtree :: rest,
                  encoded_offset := s.encoded_offset + PARENT_SIZE,
                  length_verified := true }, true)

/-- State::feed_subtree.  Returns none where the Rust code panics
(feed_subtree after EOF); otherwise the state and Ok/Err as in feed_parent. -/
def State.feed_subtree (s : State) (subtree : Hash) : Option (State × Bool) :=
  match s.stack with
  | [] => none
  | top :: rest =>
    if subtree ≠ top.hash then some (s, false)
    else
      some ({ s with
              stack := rest, content_position := top.stop,
              encoded_offset := s.encoded_offset + encoded_subtree_size top.len,
              length_verified := true }, true)

/-- Error outcomes of the Reader, mirroring the io::Error values produced in
src/decode.rs: read_exact hitting end of data (UnexpectedEof), into_io turning
a verification Err into InvalidData (hash mismatch), cast_offset overflow
(Other), add_offset range failures (InvalidInput); panicked marks a Rust
panic (a driver bug, not bad input). -/
inductive IoErr where
  | unexpectedEof : IoErr
  | hashMismatch : IoErr
  | overflow : IoErr
  | invalidInput : IoErr
  | panicked : IoErr
deriving DecidableEq, Repr

/-- Byte source with a position, modelling the inner T: Read + Seek
(an io::Cursor over a byte vector). -/
structure Inner where
  data : List Nat
  pos : Nat
deriving DecidableEq, Repr

/-- read_exact on the inner source: succeeds iff enough bytes remain. -/
def Inner.read_exact (i : Inner) (n : Nat) : Option (List Nat × Inner) :=
  if i.pos + n ≤ i.data.length then
    some ((i.data.drop i.pos).take n, { i with pos := i.pos + n })
  else none

/-- Seek the inner source to an absolute offset. -/
def Inner.seekTo (i : Inner) (off : Nat) : Inner := { i with pos := off }

/-- SeekFrom as used by Reader::seek. -/
inductive SeekFrom where
  | start (n : Nat) : SeekFrom
  | fromEnd (off : Int) : SeekFrom
  | fromCurrent (off : Int) : SeekFrom
deriving DecidableEq, Repr

/-- cast_offset from src/decode.rs: a u128 encoded offset must fit in u64. -/
def cast_offset (offset : Nat) : Except IoErr Nat :=
  if offset > U64_MAX then .error .overflow else .ok offset

/-- add_offset from src/decode.rs: widen to i128, reject sums below 0 or
above u64::MAX with InvalidInput. -/
def add_offset (position : Nat) (offset : Int) : Except IoErr Nat :=
  let sum : Int := (position : Int) + offset
  if sum < 0 then .error .invalidInput
  else if sum > (U64_MAX : Int) then .error .invalidInput
  else .ok sum.toNat

/-- Reader from src/decode.rs: inner source, decode state, and the one-chunk
buffer with its start/end indices.  The buf list holds the bytes last written
into the Rust buffer array. -/
structure Reader where
  inner : Inner
  state : State
  buf : List Nat
  buf_start : Nat
  buf_end : Nat
deriving DecidableEq, Repr

/-- Reader::new. -/
def Reader.new (inner : Inner) (root_hash : Hash) : Reader :=
  { inner, state := State.new root_hash, buf := [], buf_start := 0,
    buf_end := 0 }

/-- Reader::buf_len. -/
def Reader.buf_len (r : Reader) : Nat := r.buf_end - r.buf_start

/-- Reader::read_header.  Returns the reader after the call, plus an error
when one occurred. -/
def Reader.read_header (r : Reader) : Reader × Option IoErr :=
  match r.inner.read_exact HEADER_SIZE with
  | none => (r, some .unexpectedEof)
  | some (bytes, inner1) =>
    match r.state.feed_header bytes with
    | none => ({ r with inner := inner1 }, some .panicked)
    | some s1 => ({ r with inner := inner1, state := s1 }, none)

/-- Reader::read_parent, parameterised by the node hash function. -/
def Reader.read_parent (hashNode : List Nat → Finalization → Hash)
    (r : Reader) : Reader × Option IoErr :=
  match r.inner.read_exact PARENT_SIZE with
  | none => (r, some .unexpectedEof)
  | some (bytes, inner1) =>
    match State.feed_parent hashNode r.state bytes with
    | none => ({ r with inner := inner1 }, some .panicked)
    | some (s1, false) =>
      ({ r with inner := inner1, state := s1 }, some .hashMismatch)
    | some (s1, true) => ({ r with inner := inner1, state := s1 }, none)

/-- Reader::read_chunk.  Clears the buffer indices before any I/O, reads
exactly size bytes, hashes them with the given finalization, feeds the hash
to the state, and only on success exposes the bytes via
buf_start = skip, buf_end = size. -/
def Reader.read_chunk (hashNode : List Nat → Finalization → Hash)
    (r : Reader) (size skip : Nat) (f : Finalization) : Reader × Option IoErr :=
  let r0 := { r with buf_start := 0, buf_end := 0 }
  match r0.inner.read_exact size with
  | none => (r0, some .unexpectedEof)
  | some (bytes, inner1) =>
    match r0.state.feed_subtree (hashNode bytes f) with
    | none => ({ r0 with inner := inner1, buf := bytes }, some .panicked)
    | some (s1, false) =>
      ({ r0 with inner := inner1, state := s1, buf := bytes },
       some .hashMismatch)
    | some (s1, true) =>
      ({ r0 with
         inner := inner1, state := s1, buf := bytes,
         buf_start := skip, buf_end := size }, none)

/-- Event loop of Reader::read (the Rust loop has no break: its only exits
are the Done arm, which returns Ok with zero bytes, and error propagation).
Fuel-indexed; none means out of fuel. -/
def Reader.readEvents (hashNode : List Nat → Finalization → Hash) :
    Nat → Reader → Option (Reader × Except IoErr (List Nat))
  | 0, _ => none
  | fuel + 1, r =>
    match r.state.read_next with
    | none => some (r, .error .panicked)
    | some .header =>
      match r.read_header with
      | (r1, none) => Reader.readEvents hashNode fuel r1
      | (r1, some e) => some (r1, .error e)
    | some (.subtree _ _ _) =>
      match Reader.read_parent hashNode r with
      | (r1, none) => Reader.readEvents hashNode fuel r1
      | (r1, some e) => some (r1, .error e)
    | some (.chunk size skip f) =>
      match Reader.read_chunk hashNode r size skip f with
      | (r1, none) => Reader.readEvents hashNode fuel r1
      | (r1, some e) => some (r1, .error e)
    | some .done => some (r, .ok [])

/-- Reader::read for a destination buffer of length dstLen: when the buffer
is empty, run the event loop; otherwise copy min(buffered, dstLen) bytes out
of the buffer and advance buf_start. -/
def Reader.read (hashNode : List Nat → Finalization → Hash)
    (fuel : Nat) (r : Reader) (dstLen : Nat) :
    Option (Reader × Except IoErr (List Nat)) :=
  if r.buf_len = 0 then Reader.readEvents hashNode fuel r
  else
    let take := min r.buf_len dstLen
    let bytes := ((r.buf.drop r.buf_start).take take)
    some ({ r with buf_start := r.buf_start + take }, .ok bytes)

/-- read_to_end driver: call read with a full-chunk destination until it
returns zero bytes (EOF) or an error, concatenating the output. -/
def Reader.readAll (hashNode : List Nat → Finalization → Hash) :
    Nat → Reader → Option (Reader × Except IoErr (List Nat))
  | 0, _ => none
  | fuel + 1, r =>
    match Reader.read hashNode (fuel + 1) r CHUNK_SIZE with
    | none => none
    | some (r1, .error e) => some (r1, .error e)
    | some (r1, .ok []) => some (r1, .ok [])
    | some (r1, .ok bs) =>
      match Reader.readAll hashNode fuel r1 with
      | none => none
      | some (r2, .error e) => some (r2, .error e)
      | some (r2, .ok rest) => some (r2, .ok (bs ++ rest))

/-- Length-driving loop at the top of Reader::seek: pump len_next until the
verified content length is known. -/
def Reader.seekLen (hashNode : List Nat → Finalization → Hash) :
    Nat → Reader → Option (Reader × Except IoErr Nat)
  | 0, _ => none
  | fuel + 1, r =>
    match r.state.len_next with
    | none => some (r, .error .panicked)
    | some (.inl C) => some (r, .ok C)
    | some (.inr .header) =>
      match r.read_header with
      | (r1, none) => Reader.seekLen hashNode fuel r1
      | (r1, some e) => some (r1, .error e)
    | some (.inr (.subtree _ _ _)) =>
      match Reader.read_parent hashNode r with
      | (r1, none) => Reader.seekLen hashNode fuel r1
      | (r1, some e) => some (r1, .error e)
    | some (.inr (.chunk size skip f)) =>
      match Reader.read_chunk hashNode r size skip f with
      | (r1, none) => Reader.seekLen hashNode fuel r1
      | (r1, some e) => some (r1, .error e)
    | some (.inr .done) => some (r, .error .panicked)

/-- Main loop of Reader::seek: call seek_next, physically seek the inner
source to the returned offset, supply the returned event, and stop on Done
with the state position. -/
def Reader.seekLoop (hashNode : List Nat → Finalization → Hash) :
    Nat → Reader → Nat → Option (Reader × Except IoErr Nat)
  | 0, _, _ => none
  | fuel + 1, r, position =>
    match r.state.seek_next position with
    | none => some (r, .error .panicked)
    | some (s1, seek_offset, next) =>
      match cast_offset seek_offset with
      | .error e => some ({ r with state := s1 }, .error e)
      | .ok off =>
        let r1 := { r with state := s1, inner := r.inner.seekTo off }
        match next with
        | .header =>
          match r1.read_header with
          | (r2, none) => Reader.seekLoop hashNode fuel r2 position
          | (r2, some e) => some (r2, .error e)
        | .subtree _ _ _ =>
          match Reader.read_parent hashNode r1 with
          | (r2, none) => Reader.seekLoop hashNode fuel r2 position
          | (r2, some e) => some (r2, .error e)
        | .chunk size skip f =>
          match Reader.read_chunk hashNode r1 size skip f with
          | (r2, none) => Reader.seekLoop hashNode fuel r2 position
          | (r2, some e) => some (r2, .error e)
        | .done => some (r1, .ok r1.state.position)

/-- Reader::seek: drive the length loop, compute the absolute target with
add_offset, then run the seek loop. -/
def Reader.seek (hashNode : List Nat → Finalization → Hash)
    (fuel : Nat) (r : Reader) (pos : SeekFrom) :
    Option (Reader × Except IoErr Nat) :=
  match Reader.seekLen hashNode fuel r with
  | none => none
  | some (r1, .error e) => some (r1, .error e)
  | some (r1, .ok C) =>
    let target : Except IoErr Nat :=
      match pos with
      | .start n => .ok n
      | .fromEnd off => add_offset C off
      | .fromCurrent off => add_offset r1.state.position off
    match target with
    | .error e => some (r1, .error e)
    | .ok position => Reader.seekLoop hashNode fuel r1 position

/-- Modelled from the spec, sections 3 and 4.1 (the encoder in encode.rs is
not in src/): the hash of the subtree over a plaintext slice, computed
bottom-up; a leaf hashes its bytes, an internal node hashes the
concatenation of its children's NotRoot hashes.  Fuel-indexed (any fuel at
least the tree depth gives the tree hash). -/
def subtreeHash (hashNode : List Nat → Finalization → Hash) :
    Nat → List Nat → Finalization → Hash
  | 0, X, f => hashNode X f
  | fuel + 1, X, f =>
    if X.length ≤ CHUNK_SIZE then hashNode X f
    else
      hashNode
        (subtreeHash hashNode fuel (X.take (left_len X.length)) .notRoot ++
         subtreeHash hashNode fuel (X.drop (left_len X.length)) .notRoot) f

/-- Modelled from the spec, section 3 (the encoder in encode.rs is not in
src/): the pre-order tree layout of a combined encoding, without the
header: each internal node emits its 64 parent bytes (left child hash then
right child hash) before the encodings of its children; a leaf emits its
chunk bytes. -/
def encodeTree (hashNode : List Nat → Finalization → Hash) :
    Nat → List Nat → List Nat
  | 0, X => X
  | fuel + 1, X =>
    if X.length ≤ CHUNK_SIZE then X
    else
      let l := left_len X.length
      subtreeHash hashNode fuel (X.take l) .notRoot ++
      subtreeHash hashNode fuel (X.drop l) .notRoot ++
      encodeTree hashNode fuel (X.take l) ++
      encodeTree hashNode fuel (X.drop l)

/-- Modelled from the spec, section 3: the root hash is the top subtree's
hash with Root(content length) finalization. -/
def baoHash (hashNode : List Nat → Finalization → Hash) (fuel : Nat)
    (X : List Nat) : Hash :=
  subtreeHash hashNode fuel X (.root X.length)

/-- Modelled from the spec, section 3: a combined encoding is the 8-byte
little-endian header followed by the pre-order tree layout. -/
def encode (hashNode : List Nat → Finalization → Hash) (fuel : Nat)
    (X : List Nat) : List Nat :=
  encode_len X.length ++ encodeTree hashNode fuel X

/-- Concrete stand-in for the BLAKE2b node hash (whose internals the spec
places out of scope): a 32-byte digest determined by the byte sum and the
finalization tag.  Collision-free behaviour is irrelevant to the control-flow
properties evaluated with it. -/
def mockHash (bytes : List Nat) (f : Finalization) : Hash :=
  List.replicate 31 0 ++
    [(bytes.foldl (fun a b => a + b) 0 +
      match f with | .notRoot => 0 | .root n => n + 1) % 256]

/-- Concrete 32-byte hash value used to instantiate counterexamples and
witnesses. -/
def hB : Hash := List.replicate 32 7

theorem left_len_pos (L : Nat) : 0 < left_len L :=
  Nat.mul_pos (by norm_num [CHUNK_SIZE]) (Nat.pos_pow_of_pos _ (by norm_num))

theorem left_len_lt (L : Nat) (h : CHUNK_SIZE < L) : left_len L < L := by
  have hc : (0 : Nat) < CHUNK_SIZE := by norm_num [CHUNK_SIZE]
  have h1 : (L - 1) / CHUNK_SIZE ≠ 0 := by
    have : CHUNK_SIZE ≤ L - 1 := by omega
    have := Nat.one_le_div_iff hc |>.mpr this
    omega
  have h2 : 2 ^ Nat.log 2 ((L - 1) / CHUNK_SIZE) ≤ (L - 1) / CHUNK_SIZE :=
    Nat.pow_log_le_self 2 h1
  have h3 : left_len L ≤ CHUNK_SIZE * ((L - 1) / CHUNK_SIZE) :=
    Nat.mul_le_mul_left _ h2
  have h4 : CHUNK_SIZE * ((L - 1) / CHUNK_SIZE) ≤ L - 1 := by
    rw [Nat.mul_comm]
    exact Nat.div_mul_le_self _ _
  omega

/-- C8: a feed_parent or feed_subtree call that fails with a hash mismatch
returns the state exactly as it was before the call: stack, content_length,
length_verified, content_position and encoded_offset are all unchanged. -/
theorem feed_error_leaves_state_unchanged
    (hashNode : List Nat → Finalization → Hash) (s : State) (p : List Nat)
    (h : Hash) :
    (∀ t, State.feed_parent hashNode s p = some (t, false) → t = s) ∧
    (∀ t, State.feed_subtree s h = some (t, false) → t = s) := by
  constructor
  · intro t hp
    unfold State.feed_parent at hp
    split at hp
    · exact absurd hp (by simp)
    · split at hp
      · exact absurd hp (by simp)
      · split at hp
        · exact absurd hp (by simp)
        · simp only [ne_eq] at hp
          split at hp
          · exact (Prod.mk.injEq _ _ _ _ ▸ Option.some.injEq _ _ ▸ hp).1.symm
          · simp at hp
  · intro t hs
    unfold State.feed_subtree at hs
    split at hs
    · exact absurd hs (by simp)
    · split at hs
      · exact (Prod.mk.injEq _ _ _ _ ▸ Option.some.injEq _ _ ▸ hs).1.symm
      · simp at hs

/-- Witness for C8 at a concrete state: a mismatching parent feed and a
mismatching chunk-hash feed both return the state unchanged. -/
theorem feed_error_leaves_state_unchanged_witness :
    (∀ t, State.feed_parent mockHash
        { stack := [{ hash := hB, start := 0, stop := 5000 }], root_hash := hB,
          content_length := some 5000, length_verified := true,
          content_position := 0, encoded_offset := 8 }
        (List.replicate 64 0) = some (t, false) →
      t = { stack := [{ hash := hB, start := 0, stop := 5000 }],
            root_hash := hB, content_length := some 5000,
            length_verified := true, content_position := 0,
            encoded_offset := 8 }) ∧
    (∀ t, State.feed_subtree
        { stack := [{ hash := hB, start := 0, stop := 5000 }], root_hash := hB,
          content_length := some 5000, length_verified := true,
          content_position := 0, encoded_offset := 8 }
        (List.replicate 32 0) = some (t, false) →
      t = { stack := [{ hash := hB, start := 0, stop := 5000 }],
            root_hash := hB, content_length := some 5000,
            length_verified := true, content_position := 0,
            encoded_offset := 8 }) :=
  feed_error_leaves_state_unchanged mockHash _ _ _

/-- C9: seek target arithmetic is exact (widened, never wrapping):
add_offset rejects sums below 0 or above u64::MAX with InvalidInput and
otherwise returns the exact integer sum; cast_offset rejects an encoded
offset above u64::MAX; and Reader::seek propagates the InvalidInput error
for out-of-range SeekFrom::End and SeekFrom::Current targets. -/
theorem seek_offset_arithmetic_checked :
    (∀ (position : Nat) (offset : Int),
       (((position : Int) + offset < 0 ∨
           (position : Int) + offset > (U64_MAX : Int)) →
          add_offset position offset = .error .invalidInput) ∧
       (∀ n, add_offset position offset = .ok n →
          (n : Int) = (position : Int) + offset)) ∧
    (∀ off : Nat,
       (off ≤ U64_MAX → cast_offset off = .ok off) ∧
       (U64_MAX < off → cast_offset off = .error .overflow)) ∧
    (∀ (hashNode : List Nat → Finalization → Hash) (fuel : Nat) (r : Reader)
       (C : Nat) (off : Int), r.state.len_next = some (.inl C) →
       ((C : Int) + off < 0 ∨ (C : Int) + off > (U64_MAX : Int)) →
       Reader.seek hashNode (fuel + 1) r (.fromEnd off) =
         some (r, .error .invalidInput)) ∧
    (∀ (hashNode : List Nat → Finalization → Hash) (fuel : Nat) (r : Reader)
       (C : Nat) (off : Int), r.state.len_next = some (.inl C) →
       ((r.state.position : Int) + off < 0 ∨
          (r.state.position : Int) + off > (U64_MAX : Int)) →
       Reader.seek hashNode (fuel + 1) r (.fromCurrent off) =
         some (r, .error .invalidInput)) := by
  have hadd : ∀ (position : Nat) (offset : Int),
      (((position : Int) + offset < 0 ∨
          (position : Int) + offset > (U64_MAX : Int)) →
         add_offset position offset = .error .invalidInput) ∧
      (∀ n, add_offset position offset = .ok n →
         (n : Int) = (position : Int) + offset) := by
    intro position offset
    constructor
    · intro hrange
      unfold add_offset
      rcases hrange with hlt | hgt
      · rw [if_pos hlt]
      · rw [if_neg (by omega), if_pos hgt]
    · intro n hok
      unfold add_offset at hok
      simp only at hok
      split at hok
      · exact absurd hok (by simp)
      · split at hok
        · exact absurd hok (by simp)
        · have hn : ((position : Int) + offset).toNat = n := by
            simpa using hok
          omega
  refine ⟨hadd, ?_, ?_, ?_⟩
  · intro off
    constructor
    · intro hle
      unfold cast_offset
      rw [if_neg (by omega)]
    · intro hgt
      unfold cast_offset
      rw [if_pos hgt]
  · intro hashNode fuel r C off hlen hrange
    unfold Reader.seek Reader.seekLen
    rw [hlen]
    simp only
    rw [(hadd C off).1 hrange]
  · intro hashNode fuel r C off hlen hrange
    unfold Reader.seek Reader.seekLen
    rw [hlen]
    simp only
    rw [(hadd r.state.position off).1 hrange]

/-- Concrete reader with a verified zero-length state, used by the C9
witness. -/
def rW : Reader :=
  { inner := { data := [], pos := 0 },
    state := { stack := [], root_hash := hB, content_length := some 0,
               length_verified := true, content_position := 0,
               encoded_offset := 8 },
    buf := [], buf_start := 0, buf_end := 0 }

/-- Witness for C9 at concrete inputs: a negative SeekFrom::End target and a
negative SeekFrom::Current target produce InvalidInput; a small offset casts
cleanly. -/
theorem seek_offset_arithmetic_checked_witness :
    add_offset 0 (-1) = .error .invalidInput ∧
    cast_offset 5 = .ok 5 ∧
    Reader.seek mockHash 1 rW (.fromEnd (-1)) =
      some (rW, .error .invalidInput) ∧
    Reader.seek mockHash 1 rW (.fromCurrent (-2)) =
      some (rW, .error .invalidInput) :=
  ⟨(seek_offset_arithmetic_checked.1 0 (-1)).1 (by decide),
   (seek_offset_arithmetic_checked.2.1 5).1 (by decide),
   seek_offset_arithmetic_checked.2.2.1 mockHash 0 rW 0 (-1) (by decide)
     (by decide),
   seek_offset_arithmetic_checked.2.2.2 mockHash 0 rW 0 (-2) (by decide)
     (by decide)⟩

/-- C3: on a state with a fed header and an internal top subtree, feed_parent
hashes the 64 parent bytes with the top's finalization and compares against
the top's hash; a mismatch is an error with the state unchanged; a match pops
the top and pushes the right then the left child (so the left child is the
new top), with hashes from the first and second 32-byte halves of the parent,
the split at start + left_len(len), encoded_offset advanced by PARENT_SIZE,
and length_verified set (in particular whenever the verified node's
finalization was Root). -/
theorem feed_parent_spec (hashNode : List Nat → Finalization → Hash)
    (s : State) (C : Nat) (top : Subtree) (rest : List Subtree)
    (p : List Nat) (hC : s.content_length = some C)
    (hstack : s.stack = top :: rest) (hlen : CHUNK_SIZE < top.len) :
    (top.hash ≠ hashNode p (top.finalization C) →
       State.feed_parent hashNode s p = some (s, false)) ∧
    (top.hash = hashNode p (top.finalization C) →
       State.feed_parent hashNode s p = some
         ({ s with
            stack :=
              { hash := p.take HASH_SIZE, start := top.start,
                stop := top.start + left_len top.len } ::
              { hash := (p.drop HASH_SIZE).take HASH_SIZE,
                start := top.start + left_len top.len, stop := top.stop } ::
              rest,
            encoded_offset := s.encoded_offset + PARENT_SIZE,
            length_verified := true }, true)) := by
  constructor
  · intro hne
    unfold State.feed_parent
    rw [hC, hstack]
    simp only [Nat.not_le.mpr hlen, if_false, ne_eq, hne, not_false_iff,
      if_true]
  · intro heq
    unfold State.feed_parent
    rw [hC, hstack]
    simp only [Nat.not_le.mpr hlen, if_false, ne_eq, heq, not_true,
      if_false]

/-- Concrete state with an internal top subtree, for the C3 witness. -/
def sParent : State :=
  { stack := [{ hash := hB, start := 0, stop := 5000 }], root_hash := hB,
    content_length := some 5000, length_verified := true,
    content_position := 0, encoded_offset := 8 }

/-- Witness for C3 at a concrete state: feeding a parent whose bytes do not
hash to the expected value fails and leaves the state unchanged. -/
theorem feed_parent_spec_witness :
    (hB ≠ mockHash (List.replicate 64 0)
        (Subtree.finalization { hash := hB, start := 0, stop := 5000 } 5000) →
      State.feed_parent mockHash sParent (List.replicate 64 0) =
        some (sParent, false)) ∧
    (hB = mockHash (List.replicate 64 0)
        (Subtree.finalization { hash := hB, start := 0, stop := 5000 } 5000) →
      State.feed_parent mockHash sParent (List.replicate 64 0) = some
        ({ sParent with
           stack :=
             { hash := (List.replicate 64 0).take HASH_SIZE, start := 0,
               stop := 0 + left_len
                 (Subtree.len { hash := hB, start := 0, stop := 5000 }) } ::
             { hash := ((List.replicate 64 0).drop HASH_SIZE).take HASH_SIZE,
               start := 0 + left_len
                 (Subtree.len { hash := hB, start := 0, stop := 5000 }),
               stop := 5000 } :: [],
           encoded_offset := sParent.encoded_offset + PARENT_SIZE,
           length_verified := true }, true)) :=
  feed_parent_spec mockHash sParent 5000 _ [] (List.replicate 64 0) rfl rfl
    (by decide)

deriving instance DecidableEq for Except

/-- C1 (failing input): on the valid combined encoding of the 1-byte content
[7] (8-byte little-endian header for length 1, then the chunk byte), with the
matching root hash, the first Reader::read with a 1-byte destination returns
Ok with zero bytes — the Done arm of the event loop fires because the loop
has no break after a successful chunk read — even though the chunk was
verified and sits in the buffer (buf = [7], buf_start = 0, buf_end = 1).
The claim (and the spec) say this read returns the newly buffered byte. -/
theorem read_discards_verified_chunk :
    (Reader.read mockHash 20
        (Reader.new { data := encode mockHash 4 [7], pos := 0 }
          (baoHash mockHash 4 [7])) 1).map (fun p => p.2) =
      some (.ok []) ∧
    (Reader.read mockHash 20
        (Reader.new { data := encode mockHash 4 [7], pos := 0 }
          (baoHash mockHash 4 [7])) 1).map
        (fun p => (p.1.buf, p.1.buf_start, p.1.buf_end)) =
      some ([7], 0, 1) := by decide

/-- C2 (failing input): start from the reachable state with content length 5
whose single chunk has been consumed (stack empty, content_position = 5),
then call seek_next(3).  The claim says the target 3 is recorded as
content_position; the code's reset_to_root sets content_position back to 0,
so the call returns Done at offset 8 with content_position = 0. -/
theorem seek_next_clobbers_recorded_target :
    (((State.new hB).feed_header (encode_len 5)).bind fun s1 =>
      (s1.feed_subtree hB).bind fun q => q.1.seek_next 3).map
        (fun q => (q.1.content_position, q.2.1, q.2.2)) =
      some (0, 8, .done) := by decide

/-- C4 (failing input): on the valid combined encoding of the 1-byte content
[7], seek(SeekFrom::Start(1)) returns Ok(1), but reading to the end then
yields [7] instead of the empty suffix X[min(1, 1)..] = []: the chunk
buffered by the length-verification loop (with buf_start computed before the
seek target was known) is never cleared or re-skipped by the seek. -/
theorem seek_then_read_returns_stale_buffer :
    ((Reader.seek mockHash 20
        (Reader.new { data := encode mockHash 4 [7], pos := 0 }
          (baoHash mockHash 4 [7])) (.start 1)).map fun p => p.2) =
      some (.ok 1) ∧
    ((Reader.seek mockHash 20
        (Reader.new { data := encode mockHash 4 [7], pos := 0 }
          (baoHash mockHash 4 [7])) (.start 1)).bind fun p =>
        (Reader.readAll mockHash 20 p.1).map fun q => q.2) =
      some (.ok [7]) := by decide

/-- The event loop of Reader::read can only return Ok with zero bytes (its
sole Ok exit is the Done arm). -/
theorem readEvents_ok_empty (hashNode : List Nat → Finalization → Hash) :
    ∀ fuel r r1 bytes,
      Reader.readEvents hashNode fuel r = some (r1, .ok bytes) →
      bytes = [] := by
  intro fuel
  induction fuel with
  | zero => intro r r1 bytes h; simp [Reader.readEvents] at h
  | succ n ih =>
    intro r r1 bytes h
    unfold Reader.readEvents at h
    split at h
    · simp at h
    · split at h
      · exact ih _ _ _ h
      · simp at h
    · split at h
      · exact ih _ _ _ h
      · simp at h
    · split at h
      · exact ih _ _ _ h
      · simp at h
    · simp at h
      exact h.2

/-- C7: the reader only ever emits verified bytes.  read_chunk empties the
buffer indices before any I/O, so any failing read_chunk (truncation, panic,
or hash mismatch) leaves the buffer empty; a successful read_chunk buffers
exactly the bytes it read, and those bytes passed feed_subtree (their hash,
under the event's finalization, matched the expected subtree hash); read
either returns zero bytes or a slice of the already-buffered (hence already
verified) chunk, never touching the inner source in that case; and neither
read_header nor read_parent changes the buffer. -/
theorem reader_emits_only_verified_bytes
    (hashNode : List Nat → Finalization → Hash) :
    (∀ r size skip f r1 e,
       Reader.read_chunk hashNode r size skip f = (r1, some e) →
       r1.buf_start = 0 ∧ r1.buf_end = 0) ∧
    (∀ r size skip f r1,
       Reader.read_chunk hashNode r size skip f = (r1, none) →
       r.inner.read_exact size = some (r1.buf, r1.inner) ∧
       State.feed_subtree r.state (hashNode r1.buf f) = some (r1.state, true) ∧
       r1.buf_start = skip ∧ r1.buf_end = size) ∧
    (∀ fuel r dstLen r1 bytes,
       Reader.read hashNode fuel r dstLen = some (r1, .ok bytes) →
       bytes = [] ∨
       (bytes = (r.buf.drop r.buf_start).take (min r.buf_len dstLen) ∧
        r1.buf = r.buf ∧ r1.state = r.state ∧ r1.inner = r.inner)) ∧
    (∀ r, (r.read_header.1.buf = r.buf ∧
           r.read_header.1.buf_start = r.buf_start ∧
           r.read_header.1.buf_end = r.buf_end) ∧
          ((Reader.read_parent hashNode r).1.buf = r.buf ∧
           (Reader.read_parent hashNode r).1.buf_start = r.buf_start ∧
           (Reader.read_parent hashNode r).1.buf_end = r.buf_end)) := by
  refine ⟨?_, ?_, ?_, ?_⟩
  · intro r size skip f r1 e h
    unfold Reader.read_chunk at h
    simp only at h
    split at h
    · rw [Prod.mk.injEq] at h
      rw [← h.1]
      exact ⟨rfl, rfl⟩
    · split at h
      · rw [Prod.mk.injEq] at h
        rw [← h.1]
        exact ⟨rfl, rfl⟩
      · rw [Prod.mk.injEq] at h
        rw [← h.1]
        exact ⟨rfl, rfl⟩
      · rw [Prod.mk.injEq] at h
        exact absurd h.2 (by simp)
  · intro r size skip f r1 h
    unfold Reader.read_chunk at h
    simp only at h
    split at h
    · rw [Prod.mk.injEq] at h
      exact absurd h.2 (by simp)
    · rename_i bytes inner1 hread
      split at h
      · rw [Prod.mk.injEq] at h
        exact absurd h.2 (by simp)
      · rw [Prod.mk.injEq] at h
        exact absurd h.2 (by simp)
      · rename_i s1 hfeed
        rw [Prod.mk.injEq] at h
        rw [← h.1]
        exact ⟨hread, hfeed, rfl, rfl⟩
  · intro fuel r dstLen r1 bytes h
    unfold Reader.read at h
    split at h
    · exact Or.inl (readEvents_ok_empty hashNode fuel r r1 bytes h)
    · simp only [Option.some.injEq, Prod.mk.injEq, Except.ok.injEq] at h
      obtain ⟨h1, h2⟩ := h
      refine Or.inr ⟨h2.symm, ?_, ?_, ?_⟩
      · rw [← h1]
      · rw [← h1]
      · rw [← h1]
  · intro r
    constructor
    · unfold Reader.read_header
      split
      · exact ⟨rfl, rfl, rfl⟩
      · split
        · exact ⟨rfl, rfl, rfl⟩
        · exact ⟨rfl, rfl, rfl⟩
    · unfold Reader.read_parent
      split
      · exact ⟨rfl, rfl, rfl⟩
      · split
        · exact ⟨rfl, rfl, rfl⟩
        · exact ⟨rfl, rfl, rfl⟩
        · exact ⟨rfl, rfl, rfl⟩

/-- Whether the node the next feed call would verify (the stack top) has
Root finalization. -/
def rootFed (s : State) : Bool :=
  match s.content_length, s.stack with
  | some C, top :: _ =>
    match top.finalization C with
    | .root _ => true
    | .notRoot => false
  | _, _ => false

/-- States reachable from State::new by successful feed_header, feed_parent,
feed_subtree and seek_next calls, instrumented with whether a node with Root
finalization has successfully matched so far, and with the list of subtrees
verified so far (each successful feed records the stack top it verified). -/
inductive ReachT (hashNode : List Nat → Finalization → Hash) (root : Hash) :
    State → Bool → List Subtree → Prop where
  | base : ReachT hashNode root (State.new root) false []
  | header {s s1 : State} {b : Bool} {v : List Subtree} (hdr : List Nat) :
      ReachT hashNode root s b v → s.feed_header hdr = some s1 →
      ReachT hashNode root s1 b v
  | parent {s s1 : State} {b : Bool} {v : List Subtree} (p : List Nat) :
      ReachT hashNode root s b v →
      State.feed_parent hashNode s p = some (s1, true) →
      ReachT hashNode root s1 (b || rootFed s) (s.stack.take 1 ++ v)
  | subtree {s s1 : State} {b : Bool} {v : List Subtree} (hsh : Hash) :
      ReachT hashNode root s b v → s.feed_subtree hsh = some (s1, true) →
      ReachT hashNode root s1 (b || rootFed s) (s.stack.take 1 ++ v)
  | seek {s s1 : State} {b : Bool} {v : List Subtree} (t off : Nat)
      (n : StateNext) :
      ReachT hashNode root s b v → s.seek_next t = some (s1, off, n) →
      ReachT hashNode root s1 b v

theorem feed_header_shape (s s1 : State) (hdr : List Nat)
    (h : s.feed_header hdr = some s1) :
    s.content_length = none ∧
    s1 = { s with
           content_length := some (decode_len hdr), content_position := 0,
           encoded_offset := HEADER_SIZE,
           stack := [{ hash := s.root_hash, start := 0,
                       stop := decode_len hdr }] } := by
  unfold State.feed_header at h
  split at h
  · simp at h
  · rename_i hnone
    unfold State.reset_to_root at h
    simp only [Option.map] at h
    exact ⟨hnone, (Option.some.injEq _ _ ▸ h).symm⟩

theorem feed_parent_shape (hashNode : List Nat → Finalization → Hash)
    (s s1 : State) (p : List Nat)
    (h : State.feed_parent hashNode s p = some (s1, true)) :
    ∃ C top rest, s.content_length = some C ∧ s.stack = top :: rest ∧
      CHUNK_SIZE < top.len ∧ top.hash = hashNode p (top.finalization C) ∧
      s1 = { s with
             stack := { hash := p.take HASH_SIZE, start := top.start,
                        stop := top.start + left_len top.len } ::
                      { hash := (p.drop HASH_SIZE).take HASH_SIZE,
                        start := top.start + left_len top.len,
                        stop := top.stop } :: rest,
             encoded_offset := s.encoded_offset + PARENT_SIZE,
             length_verified := true } := by
  unfold State.feed_parent at h
  split at h
  · simp at h
  · rename_i C hC
    split at h
    · simp at h
    · rename_i top rest hstack
      split at h
      · simp at h
      · rename_i hlen
        simp only [ne_eq] at h
        split at h
        · simp at h
        · rename_i hhash
          rw [not_not] at hhash
          refine ⟨C, top, rest, hC, hstack, Nat.not_le.mp hlen, hhash, ?_⟩
          simp only [Option.some.injEq, Prod.mk.injEq] at h
          exact h.1.symm

theorem feed_subtree_shape (s s1 : State) (hsh : Hash)
    (h : s.feed_subtree hsh = some (s1, true)) :
    ∃ top rest, s.stack = top :: rest ∧ hsh = top.hash ∧
      s1 = { s with
             stack := rest, content_position := top.stop,
             encoded_offset :=
               s.encoded_offset + encoded_subtree_size top.len,
             length_verified := true } := by
  unfold State.feed_subtree at h
  split at h
  · simp at h
  · rename_i top rest hstack
    split at h
    · simp at h
    · rename_i hhash
      rw [ne_eq, not_not] at hhash
      refine ⟨top, rest, hstack, hhash, ?_⟩
      simp only [Option.some.injEq, Prod.mk.injEq] at h
      exact h.1.symm

theorem len_next_inl (s : State) (C : Nat)
    (h : s.len_next = some (.inl C)) :
    s.length_verified = true ∧ s.content_length = some C := by
  unfold State.len_next at h
  split at h
  · rename_i C0 hC
    split at h
    · rename_i hlv
      simp only [Option.some.injEq, Sum.inl.injEq] at h
      exact ⟨hlv, h ▸ hC⟩
    · split at h
      · simp at h
      · simp at h
  · simp at h

theorem seekLoop_suffix (C t pos : Nat) :
    ∀ (l : List Subtree) (off : Nat), (seekLoop C t pos l off).1 <:+ l := by
  intro l
  induction l with
  | nil => intro off; exact List.suffix_refl _
  | cons a l ih =>
    intro off
    unfold seekLoop
    split
    · exact List.suffix_refl _
    · split
      · exact List.suffix_refl _
      · exact (ih _).trans (List.suffix_cons a l)

theorem seek_next_shape (s s1 : State) (t off : Nat) (n : StateNext)
    (h : s.seek_next t = some (s1, off, n)) :
    s1.length_verified = s.length_verified ∧
    s1.root_hash = s.root_hash ∧
    s1.content_length = s.content_length ∧
    (s.length_verified = false → s1 = s) ∧
    (s1.stack <:+ s.stack ∨
     ∃ C, s.content_length = some C ∧
       s1.stack <:+ [{ hash := s.root_hash, start := 0, stop := C }]) := by
  unfold State.seek_next at h
  split at h
  · simp at h
  · simp only [Option.some.injEq, Prod.mk.injEq] at h
    obtain ⟨h1, -, -⟩ := h
    subst h1
    exact ⟨rfl, rfl, rfl, fun _ => rfl, Or.inl (List.suffix_refl _)⟩
  · rename_i C hlen
    obtain ⟨hlv, hC⟩ := len_next_inl s C hlen
    simp only at h
    split at h
    · simp only [Option.some.injEq, Prod.mk.injEq] at h
      obtain ⟨h1, -, -⟩ := h
      subst h1
      exact ⟨hlv ▸ rfl, rfl, rfl, fun hf => absurd (hf ▸ hlv) (by simp),
        Or.inl (List.suffix_refl _)⟩
    · simp at h
    · rename_i s2 hs2
      split at h
      · simp at h
      · rename_i s3 hs3
        simp only [Option.some.injEq, Prod.mk.injEq] at h
        obtain ⟨h1, -, -⟩ := h
        subst h1
        -- s2 is either the position-updated s or the root reset; s3 likewise
        have hflag : s.length_verified = true := hlv
        have hs2cases :
            (s2.length_verified = s.length_verified ∧
             s2.root_hash = s.root_hash ∧
             s2.content_length = s.content_length ∧
             (s2.stack = s.stack ∨
              s2.stack = [{ hash := s.root_hash, start := 0, stop := C }])) := by
          by_cases he : ({ s with content_position := t } : State).stack.isEmpty
          · rw [if_pos he] at hs2
            split at hs2
            · simp at hs2
            · unfold State.reset_to_root at hs2
              simp only [hC, Option.map] at hs2
              simp only [Option.some.injEq] at hs2
              subst hs2
              exact ⟨rfl, rfl, hC.symm, Or.inr rfl⟩
          · rw [if_neg he] at hs2
            simp only [Option.some.injEq] at hs2
            subst hs2
            exact ⟨rfl, rfl, rfl, Or.inl rfl⟩
        have hs3cases :
            (s3.length_verified = s.length_verified ∧
             s3.root_hash = s.root_hash ∧
             s3.content_length = s.content_length ∧
             (s3.stack = s.stack ∨
              s3.stack = [{ hash := s.root_hash, start := 0, stop := C }])) := by
          obtain ⟨e1, e2, e3, e4⟩ := hs2cases
          split at hs3
          · split at hs3
            · unfold State.reset_to_root at hs3
              rw [e3] at hs3
              simp only [hC, Option.map] at hs3
              simp only [Option.some.injEq] at hs3
              subst hs3
              exact ⟨e1, e2, hC.symm, Or.inr (by rw [e2])⟩
            · simp only [Option.some.injEq] at hs3
              subst hs3
              exact ⟨e1, e2, e3, e4⟩
          · simp only [Option.some.injEq] at hs3
            subst hs3
            exact ⟨e1, e2, e3, e4⟩
        obtain ⟨f1, f2, f3, f4⟩ := hs3cases
        refine ⟨f1, f2, f3, fun hf => absurd (hf ▸ hflag) (by simp [hf]), ?_⟩
        rcases f4 with hh | hh
        · exact Or.inl (hh ▸ seekLoop_suffix C t s3.content_position s3.stack
            s3.encoded_offset)
        · exact Or.inr ⟨C, hC, hh ▸ seekLoop_suffix C t s3.content_position
            s3.stack s3.encoded_offset⟩

theorem reach_flag_inv (hashNode : List Nat → Finalization → Hash)
    (root : Hash) :
    ∀ s b v, ReachT hashNode root s b v →
      s.length_verified = b ∧ s.root_hash = root ∧
      (b = false → s.content_length = none → s.stack = []) ∧
      (b = false → ∀ C, s.content_length = some C →
        s.stack = [{ hash := root, start := 0, stop := C }]) := by
  intro s b v h
  induction h with
  | base =>
    refine ⟨rfl, rfl, fun _ _ => rfl, fun _ C hc => ?_⟩
    simp [State.new] at hc
  | header hdr hr hf ih =>
    obtain ⟨hnone, hs1⟩ := feed_header_shape _ _ _ hf
    subst hs1
    refine ⟨ih.1, ih.2.1, fun _ hc => by simp at hc, fun _ C hc => ?_⟩
    simp only [Option.some.injEq] at hc
    rw [ih.2.1, hc]
  | parent p hr hf ih =>
    rename_i s s1 b v
    obtain ⟨C, top, rest, hC, hstack, hlen, hhash, hs1⟩ :=
      feed_parent_shape hashNode s s1 p hf
    subst hs1
    have hflag : (true : Bool) = (b || rootFed s) := by
      cases b with
      | true => rfl
      | false =>
        have hstk := ih.2.2.2 rfl C hC
        rw [hstack] at hstk
        simp only [List.cons.injEq] at hstk
        have hrf : rootFed s = true := by
          simp [rootFed, hC, hstack, hstk.1, Subtree.finalization,
            Subtree.is_root]
        rw [hrf]
        rfl
    refine ⟨hflag, ih.2.1, ?_, ?_⟩
    · intro hb
      rw [hb] at hflag
      exact absurd hflag (by simp)
    · intro hb
      rw [hb] at hflag
      exact absurd hflag (by simp)
  | subtree hsh hr hf ih =>
    rename_i s s1 b v
    obtain ⟨top, rest, hstack, hh, hs1⟩ := feed_subtree_shape s s1 hsh hf
    subst hs1
    have hflag : (true : Bool) = (b || rootFed s) := by
      cases b with
      | true => rfl
      | false =>
        cases hCL : s.content_length with
        | none =>
          have hemp := ih.2.2.1 rfl hCL
          rw [hstack] at hemp
          simp at hemp
        | some C =>
          have hstk := ih.2.2.2 rfl C hCL
          rw [hstack] at hstk
          simp only [List.cons.injEq] at hstk
          have hrf : rootFed s = true := by
            simp [rootFed, hCL, hstack, hstk.1, Subtree.finalization,
              Subtree.is_root]
          rw [hrf]
          rfl
    refine ⟨hflag, ih.2.1, ?_, ?_⟩
    · intro hb
      rw [hb] at hflag
      exact absurd hflag (by simp)
    · intro hb
      rw [hb] at hflag
      exact absurd hflag (by simp)
  | seek t off n hr hf ih =>
    rename_i s s1 b v
    obtain ⟨f1, f2, f3, f4, -⟩ := seek_next_shape s s1 t off n hf
    refine ⟨f1.trans ih.1, f2.trans ih.2.1, ?_, ?_⟩
    · intro hb hc
      have hsf : s.length_verified = false := ih.1.trans hb
      rw [f4 hsf] at hc ⊢
      exact ih.2.2.1 hb hc
    · intro hb C hc
      have hsf : s.length_verified = false := ih.1.trans hb
      rw [f4 hsf] at hc ⊢
      exact ih.2.2.2 hb C hc

/-- C6: in every state reachable from State::new by successful feed_header,
feed_parent, feed_subtree and seek_next calls, length_verified is true iff
some node whose finalization was Root has successfully matched (the
instrumented bit of ReachT); in particular, while length_verified is still
false, any feed_parent or feed_subtree that succeeds verifies a node whose
finalization is Root. -/
theorem length_verified_iff_root_matched
    (hashNode : List Nat → Finalization → Hash) (root : Hash) (s : State)
    (b : Bool) (v : List Subtree) (hr : ReachT hashNode root s b v) :
    (s.length_verified = true ↔ b = true) ∧
    (s.length_verified = false →
      (∀ p s1, State.feed_parent hashNode s p = some (s1, true) →
         rootFed s = true) ∧
      (∀ hsh s1, State.feed_subtree s hsh = some (s1, true) →
         rootFed s = true)) := by
  obtain ⟨i1, i2, i3, i4⟩ := reach_flag_inv hashNode root s b v hr
  constructor
  · rw [i1]
  · intro hflag
    have hb : b = false := by rw [← i1, hflag]
    constructor
    · intro p s1 hf
      obtain ⟨C, top, rest, hC, hstack, -, -, -⟩ :=
        feed_parent_shape hashNode s s1 p hf
      have hstk := i4 hb C hC
      rw [hstack] at hstk
      simp only [List.cons.injEq] at hstk
      simp [rootFed, hC, hstack, hstk.1, Subtree.finalization,
        Subtree.is_root]
    · intro hsh s1 hf
      obtain ⟨top, rest, hstack, -, -⟩ := feed_subtree_shape s s1 hsh hf
      cases hCL : s.content_length with
      | none =>
        have hemp := i3 hb hCL
        rw [hstack] at hemp
        simp at hemp
      | some C =>
        have hstk := i4 hb C hCL
        rw [hstack] at hstk
        simp only [List.cons.injEq] at hstk
        simp [rootFed, hCL, hstack, hstk.1, Subtree.finalization,
          Subtree.is_root]

/-- Witness for C6 at the concrete base state State::new: the equivalence
and the Root-only-feed property hold there. -/
theorem length_verified_iff_root_matched_witness :
    ((State.new hB).length_verified = true ↔ false = true) ∧
    ((State.new hB).length_verified = false →
      (∀ p s1, State.feed_parent mockHash (State.new hB) p = some (s1, true) →
         rootFed (State.new hB) = true) ∧
      (∀ hsh s1, State.feed_subtree (State.new hB) hsh = some (s1, true) →
         rootFed (State.new hB) = true)) :=
  length_verified_iff_root_matched mockHash hB _ _ _ ReachT.base

/-- State after feeding the header for content length 1. -/
def cexHdr : State :=
  { stack := [{ hash := hB, start := 0, stop := 1 }], root_hash := hB,
    content_length := some 1, length_verified := false, content_position := 0,
    encoded_offset := 8 }

/-- State after the root chunk of the 1-byte content verified. -/
def cexFed : State :=
  { stack := [], root_hash := hB, content_length := some 1,
    length_verified := true, content_position := 1, encoded_offset := 9 }

/-- State after seek_next(0) from cexFed: the reset pushed the root subtree
back on the stack. -/
def cexFinal : State :=
  { stack := [{ hash := hB, start := 0, stop := 1 }], root_hash := hB,
    content_length := some 1, length_verified := true, content_position := 0,
    encoded_offset := 8 }

/-- C5 counterexample: a state reachable by feed_header (length 1), a
successful feed_subtree of the single (root) chunk, then seek_next(0),
whose stack again contains the root subtree although that subtree was
already verified — refuting "no subtree on the stack has yet been
verified". -/
theorem verified_subtree_back_on_stack :
    ∃ s b v, ReachT mockHash hB s b v ∧ ∃ t, t ∈ s.stack ∧ t ∈ v := by
  refine ⟨cexFinal, false || rootFed cexHdr, cexHdr.stack.take 1 ++ [], ?_,
    { hash := hB, start := 0, stop := 1 }, ?_, ?_⟩
  · have h1 : ReachT mockHash hB cexHdr false [] :=
      ReachT.header (encode_len 1) ReachT.base (by decide)
    have h2 : ReachT mockHash hB cexFed (false || rootFed cexHdr)
        (cexHdr.stack.take 1 ++ []) :=
      ReachT.subtree hB h1 (by decide)
    exact ReachT.seek 0 8 .done h2 (by decide)
  · decide
  · decide

theorem chain_head_le (a : Subtree) (l : List Subtree) :
    List.Chain' (fun x y => x.stop = y.start) (a :: l) →
    (∀ t ∈ a :: l, t.start ≤ t.stop) →
    ∀ t ∈ l, a.stop ≤ t.start := by
  induction l generalizing a with
  | nil => intro _ _ t ht; simp at ht
  | cons c l ih =>
    intro hc hwf t ht
    have hac : a.stop = c.start := (List.chain'_cons.mp hc).1
    rcases List.mem_cons.mp ht with rfl | ht2
    · exact le_of_eq hac
    · have hcs := ih c (List.chain'_cons.mp hc).2
        (fun u hu => hwf u (List.mem_cons_of_mem a hu)) t ht2
      have hcc : c.start ≤ c.stop := hwf c (by simp)
      omega

/-- C5 (amended): in every reachable state the stack subtrees are contiguous
and in right-to-left traversal order — adjacent entries satisfy
top.stop = next.start, every entry has start ≤ stop, and the top entry ends
at or before the start of every entry below it, so the top covers the
leftmost pending range; every successful feed_parent replaces the top by its
left child over its right child (hashes from the two parent halves); and
every successful feed_subtree pops the top and advances content_position to
that subtree's end.  (A subtree may reappear on the stack after it was
already verified, when a seek resets to the root.) -/
theorem stack_ordered_and_feed_effects
    (hashNode : List Nat → Finalization → Hash) (root : Hash) :
    (∀ s b v, ReachT hashNode root s b v →
       List.Chain' (fun a c => a.stop = c.start) s.stack ∧
       (∀ t ∈ s.stack, t.start ≤ t.stop) ∧
       (∀ top rest, s.stack = top :: rest → ∀ t ∈ rest,
          top.stop ≤ t.start)) ∧
    (∀ s s1 p, State.feed_parent hashNode s p = some (s1, true) →
       ∃ C top rest, s.content_length = some C ∧ s.stack = top :: rest ∧
         s1.stack = { hash := p.take HASH_SIZE, start := top.start,
                      stop := top.start + left_len top.len } ::
                    { hash := (p.drop HASH_SIZE).take HASH_SIZE,
                      start := top.start + left_len top.len,
                      stop := top.stop } :: rest) ∧
    (∀ s s1 hsh, State.feed_subtree s hsh = some (s1, true) →
       ∃ top rest, s.stack = top :: rest ∧ s1.stack = rest ∧
         s1.content_position = top.stop) := by
  have main : ∀ s b v, ReachT hashNode root s b v →
      List.Chain' (fun a c => a.stop = c.start) s.stack ∧
      (∀ t ∈ s.stack, t.start ≤ t.stop) := by
    intro s b v h
    induction h with
    | base => exact ⟨List.chain'_nil, by simp [State.new]⟩
    | header hdr hr hf ih =>
      obtain ⟨hnone, hs1⟩ := feed_header_shape _ _ _ hf
      subst hs1
      refine ⟨List.chain'_singleton _, ?_⟩
      intro t ht
      simp only [List.mem_singleton] at ht
      subst ht
      exact Nat.zero_le _
    | parent p hr hf ih =>
      rename_i s s1 b v
      obtain ⟨C, top, rest, hC, hstack, hlen, hhash, hs1⟩ :=
        feed_parent_shape hashNode s s1 p hf
      subst hs1
      rw [hstack] at ih
      have htop : top.start ≤ top.stop := ih.2 top (by simp)
      have hll : left_len top.len < top.len := left_len_lt top.len hlen
      have hsplit : top.start + left_len top.len ≤ top.stop := by
        unfold Subtree.len at hll ⊢
        omega
      constructor
      · simp only
        rw [List.chain'_cons]
        refine ⟨rfl, ?_⟩
        rw [List.chain'_cons']
        refine ⟨?_, ih.1.tail⟩
        intro y hy
        cases rest with
        | nil => simp at hy
        | cons r0 rl =>
          simp only [List.head?_cons, Option.mem_def, Option.some.injEq]
            at hy
          subst hy
          exact (List.chain'_cons.mp ih.1).1
      · intro t ht
        simp only [List.mem_cons] at ht
        rcases ht with rfl | rfl | hmem
        · exact Nat.le_add_right _ _
        · exact hsplit
        · exact ih.2 t (List.mem_cons_of_mem top hmem)
    | subtree hsh hr hf ih =>
      rename_i s s1 b v
      obtain ⟨top, rest, hstack, hh, hs1⟩ := feed_subtree_shape s s1 hsh hf
      subst hs1
      rw [hstack] at ih
      exact ⟨ih.1.tail, fun t ht => ih.2 t (List.mem_cons_of_mem top ht)⟩
    | seek t off n hr hf ih =>
      rename_i s s1 b v
      obtain ⟨-, -, -, -, hsuf⟩ := seek_next_shape s s1 t off n hf
      rcases hsuf with hsuf | ⟨C, -, hsuf⟩
      · exact ⟨ih.1.suffix hsuf, fun u hu => ih.2 u (hsuf.subset hu)⟩
      · refine ⟨(List.chain'_singleton _).suffix hsuf, ?_⟩
        intro u hu
        have := hsuf.subset hu
        simp only [List.mem_singleton] at this
        subst this
        exact Nat.zero_le _
  refine ⟨?_, ?_, ?_⟩
  · intro s b v hr
    obtain ⟨h1, h2⟩ := main s b v hr
    refine ⟨h1, h2, ?_⟩
    intro top rest hst u hu
    rw [hst] at h1 h2
    exact chain_head_le top rest h1 h2 u hu
  · intro s s1 p hf
    obtain ⟨C, top, rest, hC, hstack, -, -, hs1⟩ :=
      feed_parent_shape hashNode s s1 p hf
    exact ⟨C, top, rest, hC, hstack, by rw [hs1]⟩
  · intro s s1 hsh hf
    obtain ⟨top, rest, hstack, -, hs1⟩ := feed_subtree_shape s s1 hsh hf
    exact ⟨top, rest, hstack, by rw [hs1], by rw [hs1]⟩

end Bao
